import Mathlib

/-!
Verification development for the tynq lazy enumeration engine.

The definitions below are shallow embeddings of the cursor protocol
(`IEnumerator`), the state-machine cursor (`EnumeratorStateMachine` from the
iterators package), the array adapter (`ArrayEnumerator`), the `Lookup`
grouping structure, and the operator catalog of `Enumerable`
(select, where, take, takeLast, skip, selectMany, except, innerJoin,
aggregate, elementAt, elementAtOrDefault, count, toArray, empty).

Modelling conventions:
* A JavaScript array / conforming re-iterable sequence is embedded as a
  `List`; a conforming source cursor over it is `ListCursor` (stages the
  elements in order, one per successful advance, with an instrumentation
  counter `pulls` recording how many times `moveNext` was invoked).
* The registered array adapter is embedded separately as `ArrayEnumerator`,
  field for field from `iterators/array-enumerator.ts`.
* `DONE` is `Option.none`; a staged value is `Option.some`.
* JavaScript numbers used as counts/indices are embedded as `Int`.
* Errors thrown through `ThrowHelper` are `Except.error` of `TynqError`.
* Loops `while (e.moveNext()) { ... }` inside a single step closure are
  embedded as recursion terminating on the cursor measure; the outer drain
  loop of a terminal operator is embedded with explicit fuel.
-/

namespace Tynq

/-- The three states of `EnumeratorStateMachine` (`EnumeratorState` in
`iterators/enumerator-state-machine`): `Stop = -1`, `Setup = 0`,
`HasNextElement = 1`. -/
inductive MachineState : Type where
  | Stop : MachineState
  | Setup : MachineState
  | HasNextElement : MachineState
deriving DecidableEq, Repr

/-- Errors produced by `ThrowHelper` in `exceptions`. -/
inductive TynqError : Type where
  | argumentNull : String → TynqError
  | argumentOutOfRange : String → TynqError
  | empty : TynqError
  | noMatch : TynqError
  | moreThanOneMatch : TynqError
  | invalidOperation : String → TynqError
deriving DecidableEq, Repr

/-- A conforming source cursor over a re-iterable sequence whose elements
are `source`: stages each element in order on successive advances.
`pulls` instruments how many times `moveNext` has been invoked (it is not
part of the modelled program state and is read only by frame-effect
theorems). -/
structure ListCursor (α : Type) : Type where
  source : List α
  remaining : List α
  current : Option α
  pulls : Nat
deriving DecidableEq, Repr

/-- A fresh cursor over `l` (what `source.getEnumerator()` returns for a
conforming adapter). -/
def ListCursor.init (l : List α) : ListCursor α :=
  ⟨l, l, none, 0⟩

/-- `moveNext` of a conforming cursor: stages the next element and returns
`true`, or returns `false` once exhausted. -/
def ListCursor.moveNext (c : ListCursor α) : ListCursor α × Bool :=
  match c.remaining with
  | [] => ({ c with pulls := c.pulls + 1 }, false)
  | x :: xs =>
      ({ c with remaining := xs, current := some x, pulls := c.pulls + 1 }, true)

/-- `reset` of a conforming cursor: re-binds to the beginning of the
source (`current` is left as-is, matching the adapters in the source). -/
def ListCursor.reset (c : ListCursor α) : ListCursor α :=
  { c with remaining := c.source }

theorem ListCursor.moveNext_true_length {c c' : ListCursor α}
    (h : c.moveNext = (c', true)) :
    c'.remaining.length < c.remaining.length := by
  cases hr : c.remaining with
  | nil => simp [ListCursor.moveNext, hr] at h
  | cons x xs =>
      simp [ListCursor.moveNext, hr] at h
      rw [← h]
      simp [hr]

/-- The registered array adapter from `iterators/array-enumerator.ts`:
`_idx` starts at `0`, `moveNext` first increments `_idx`, returns `false`
when `_idx >= source.length`, and otherwise stages `source[_idx]`. -/
structure ArrayEnumerator (α : Type) : Type where
  source : List α
  idx : Nat
  current : Option α
deriving DecidableEq, Repr

/-- `new ArrayEnumerator(source)`: `_idx = 0`, `current = null`. -/
def ArrayEnumerator.init (l : List α) : ArrayEnumerator α :=
  ⟨l, 0, none⟩

/-- `ArrayEnumerator.moveNext`. -/
def ArrayEnumerator.moveNext (e : ArrayEnumerator α) :
    ArrayEnumerator α × Bool :=
  let i := e.idx + 1
  if h : i < e.source.length then
    ({ e with idx := i, current := some (e.source.get ⟨i, h⟩) }, true)
  else
    ({ e with idx := i }, false)

/-- `ArrayEnumerator.reset`: sets `_idx = 0`. -/
def ArrayEnumerator.reset (e : ArrayEnumerator α) : ArrayEnumerator α :=
  { e with idx := 0 }

/-- The `IEnumerator` contract, packaged so operators can be written once
over any cursor implementation (the operators in `enumerable.ts` are
generic over `IEnumerator`).  `measure`/`measure_lt` witness that a
successful advance makes progress; they exist so that the `while` loops
inside step closures can be embedded as terminating recursion. -/
structure CursorImpl (σ : Type) (α : Type) : Type where
  moveNext : σ → σ × Bool
  current : σ → Option α
  reset : σ → σ
  measure : σ → Nat
  measure_lt : ∀ s, (moveNext s).2 = true → measure (moveNext s).1 < measure s

/-- The conforming cursor as a `CursorImpl`. -/
def listCursorImpl (α : Type) : CursorImpl (ListCursor α) α where
  moveNext := ListCursor.moveNext
  current := ListCursor.current
  reset := ListCursor.reset
  measure := fun c => c.remaining.length
  measure_lt := by
    intro s h
    rcases hm : s.moveNext with ⟨s', b⟩
    rw [hm] at h
    subst h
    exact ListCursor.moveNext_true_length hm

/-- The registered array adapter as a `CursorImpl`. -/
def arrayCursorImpl (α : Type) : CursorImpl (ArrayEnumerator α) α where
  moveNext := ArrayEnumerator.moveNext
  current := ArrayEnumerator.current
  reset := ArrayEnumerator.reset
  measure := fun e => e.source.length - e.idx
  measure_lt := by
    intro s h
    by_cases hlt : s.idx + 1 < s.source.length
    · simp only [ArrayEnumerator.moveNext, dif_pos hlt]
      omega
    · simp [ArrayEnumerator.moveNext, dif_neg hlt] at h

/-- Repeatedly advance a cursor and collect the staged values, mirroring a
terminal consumer driving `advance()`/`current` directly.  `fuel` bounds
the number of advances (the JS loop has no bound; every theorem below
supplies sufficient fuel). -/
def CursorImpl.drain (C : CursorImpl σ α) : Nat → σ → List α
  | 0, _ => []
  | fuel + 1, s =>
      match C.moveNext s with
      | (s', true) =>
          match C.current s' with
          | some v => v :: C.drain fuel s'
          | none => C.drain fuel s'
      | (_, false) => []

/-- The state-machine cursor of `EnumeratorStateMachine.create(setup)`:
`setup` is the stored closure that, on first advance, creates the upstream
cursors and other per-enumeration state (`σ`), and `step` is the `next`
closure it produces (returning `none` for `DONE`).  `state`, `inner` and
`current` are the mutable fields; at construction `state = Setup`,
no inner state exists yet and `current` is absent. -/
structure Machine (σ : Type) (α : Type) : Type where
  setup : Unit → σ
  step : σ → σ × Option α
  state : MachineState
  inner : Option σ
  current : Option α

/-- `EnumeratorStateMachine.create`: records the setup/step closures and
initialises the state to `Setup`; nothing else happens. -/
def Machine.create (setup : Unit → σ) (step : σ → σ × Option α) :
    Machine σ α :=
  ⟨setup, step, .Setup, none, none⟩

/-- The tail of `moveNext`: run `next()` once; `DONE` leaves the state at
`Stop`, a value stages it and sets the state to `HasNextElement`. -/
def Machine.runStep (m : Machine σ α) (s : σ) : Machine σ α × Bool :=
  match m.step s with
  | (s', none) => ({ m with inner := some s' }, false)
  | (s', some v) =>
      ({ m with inner := some s', state := .HasNextElement,
                current := some v }, true)

/-- `EnumeratorStateMachine.moveNext`: in `Stop`, return `false` at once;
in `Setup`, run `setup()` and fall into the step with the state set to
`Stop`; in `HasNextElement`, set the state to `Stop` and run the step. -/
def Machine.moveNext (m : Machine σ α) : Machine σ α × Bool :=
  match m.state with
  | .Stop => (m, false)
  | .Setup =>
      Machine.runStep
        { m with state := .Stop, inner := some (m.setup ()) } (m.setup ())
  | .HasNextElement =>
      match m.inner with
      | some s => Machine.runStep { m with state := .Stop } s
      | none => (m, false)

/-- `Enumerable.toArray` driving a state-machine cursor: advance while
possible, pushing `current`, and also return the final machine (so that
frame-effect theorems can inspect its inner state).  `fuel` bounds the
loop. -/
def Machine.drive (m : Machine σ α) : Nat → List α × Machine σ α
  | 0 => ([], m)
  | fuel + 1 =>
      match m.moveNext with
      | (m', true) =>
          let r := m'.drive fuel
          (m'.current.toList ++ r.1, r.2)
      | (m', false) => ([], m')

/-- The drained element list of `Enumerable.toArray`. -/
def Machine.toArray (m : Machine σ α) (fuel : Nat) : List α :=
  (m.drive fuel).1

/-- `Enumerable.empty()`: `EnumeratorStateMachine.create(() => () => DONE)`. -/
def Machine.empty (α : Type) : Machine Unit α :=
  Machine.create (fun _ => ()) (fun s => (s, none))

/-- Proof-side companion of `Machine.drive`: iterate a bare step function
from an inner state, collecting produced values until the step yields
`none`, and return the inner state at that point. -/
def stepRun (step : σ → σ × Option α) : Nat → σ → List α × σ
  | 0, s => ([], s)
  | fuel + 1, s =>
      match step s with
      | (s', some v) =>
          let r := stepRun step fuel s'
          (v :: r.1, r.2)
      | (s', none) => ([], s')

theorem Machine.drive_stop (m : Machine σ α) (fuel : Nat)
    (h : m.state = .Stop) : m.drive fuel = ([], m) := by
  cases fuel with
  | zero => rfl
  | succ fuel => simp [Machine.drive, Machine.moveNext, h]

theorem Machine.drive_hasNext (fuel : Nat) :
    ∀ (m : Machine σ α) (s : σ), m.state = .HasNextElement →
      m.inner = some s →
      (m.drive fuel).1 = (stepRun m.step fuel s).1 ∧
      (m.drive fuel).2.inner = some (stepRun m.step fuel s).2 := by
  induction fuel with
  | zero =>
      intro m s hst hin
      simp [Machine.drive, stepRun, hin]
  | succ fuel ih =>
      intro m s hst hin
      rcases hstep : m.step s with ⟨s', v⟩
      cases v with
      | none =>
          simp [Machine.drive, Machine.moveNext, hst, hin,
                Machine.runStep, hstep, stepRun]
      | some v =>
          have hmv :
              m.moveNext =
                ({ m with inner := some s', state := .HasNextElement,
                          current := some v }, true) := by
            simp [Machine.moveNext, hst, hin, Machine.runStep, hstep]
          have hrec :=
            ih { m with inner := some s', state := .HasNextElement,
                        current := some v } s' rfl rfl
          simp only [Machine.drive, hmv, stepRun, hstep]
          simp only at hrec
          constructor
          · simp [hrec.1]
          · simp [hrec.2]

theorem Machine.drive_setup (m : Machine σ α) (fuel : Nat)
    (hfuel : 1 ≤ fuel) (h : m.state = .Setup) :
    (m.drive fuel).1 = (stepRun m.step fuel (m.setup ())).1 ∧
    (m.drive fuel).2.inner = some (stepRun m.step fuel (m.setup ())).2 := by
  cases fuel with
  | zero => omega
  | succ fuel =>
      rcases hstep : m.step (m.setup ()) with ⟨s', v⟩
      cases v with
      | none =>
          simp [Machine.drive, Machine.moveNext, h,
                Machine.runStep, hstep, stepRun]
      | some v =>
          have hmv :
              m.moveNext =
                ({ m with inner := some s', state := .HasNextElement,
                          current := some v }, true) := by
            simp [Machine.moveNext, h, Machine.runStep, hstep]
          have hrec :=
            Machine.drive_hasNext fuel
              { m with inner := some s', state := .HasNextElement,
                       current := some v } s' rfl rfl
          simp only [Machine.drive, hmv, stepRun, hstep]
          simp only at hrec
          constructor
          · simp [hrec.1]
          · simp [hrec.2]

/-- If the first step application of two inner states agrees, iterating
from either produces the same result (used to unfold the `while` loops
that skip elements inside a single step call). -/
theorem stepRun_congr (step : σ → σ × Option α) (fuel : Nat) (s t : σ)
    (h : step s = step t) :
    stepRun step (fuel + 1) s = stepRun step (fuel + 1) t := by
  simp [stepRun, h]

/-- Step closure of `Enumerable.select`: `while (e.moveNext()) return
selector(e.current!); return DONE` (the loop body always returns, so one
advance per call). -/
def selectStep (C : CursorImpl σ α) (selector : α → β) (e : σ) :
    σ × Option β :=
  match C.moveNext e with
  | (e', true) => (e', (C.current e').map selector)
  | (e', false) => (e', none)

/-- `Enumerable.select`: records a state machine whose setup acquires a
fresh source cursor. -/
def selectMachine (C : CursorImpl σ α) (getEnumerator : Unit → σ)
    (selector : α → β) : Machine σ β :=
  Machine.create (fun _ => getEnumerator ()) (selectStep C selector)

/-- Step closure of `Enumerable.where`: pull from upstream until the
predicate holds or upstream is exhausted. -/
def whereStep (C : CursorImpl σ α) (predicate : α → Bool) (e : σ) :
    σ × Option α :=
  match h : C.moveNext e with
  | (e', true) =>
      match C.current e' with
      | some c => if predicate c then (e', some c) else whereStep C predicate e'
      | none => whereStep C predicate e'
  | (e', false) => (e', none)
termination_by C.measure e
decreasing_by
  all_goals
    have hlt := C.measure_lt e (by rw [h])
    rw [h] at hlt
    exact hlt

/-- `Enumerable.where`. -/
def whereMachine (C : CursorImpl σ α) (getEnumerator : Unit → σ)
    (predicate : α → Bool) : Machine σ α :=
  Machine.create (fun _ => getEnumerator ()) (whereStep C predicate)

/-- Step closure of `Enumerable.take` for `count > 0`: advance upstream,
return `DONE` once `i++ === count`, otherwise stage the pulled element.
The bound is tested only after the advance. -/
def takeStep (C : CursorImpl σ α) (count : Int) (s : Int × σ) :
    (Int × σ) × Option α :=
  match C.moveNext s.2 with
  | (e', true) =>
      if s.1 = count then ((s.1 + 1, e'), none)
      else ((s.1 + 1, e'), C.current e')
  | (e', false) => ((s.1, e'), none)

/-- `Enumerable.take` for `count > 0` (for `count ≤ 0` the operator
returns `Enumerable.empty()` before any machine is built; see
`Enumerable.take`). -/
def takeMachine (C : CursorImpl σ α) (getEnumerator : Unit → σ)
    (count : Int) : Machine (Int × σ) α :=
  Machine.create (fun _ => (0, getEnumerator ())) (takeStep C count)

/-- Observable result of `Enumerable.take(source, count).toArray()`,
including the `count <= 0` guard that returns `Enumerable.empty()`. -/
def Enumerable.take (l : List α) (count : Int) (fuel : Nat) : List α :=
  if count ≤ 0 then (Machine.empty α).toArray fuel
  else (takeMachine (listCursorImpl α) (fun _ => ListCursor.init l)
          count).toArray fuel

/-- Step closure of `Enumerable.skip` for `count > 0`: loop the upstream
cursor, and once `i++ >= count`, stage the pulled element. -/
def skipStep (C : CursorImpl σ α) (count : Int) (s : Int × σ) :
    (Int × σ) × Option α :=
  match h : C.moveNext s.2 with
  | (e', true) =>
      if count ≤ s.1 then ((s.1 + 1, e'), C.current e')
      else skipStep C count (s.1 + 1, e')
  | (e', false) => ((s.1, e'), none)
termination_by C.measure s.2
decreasing_by
  have hlt := C.measure_lt s.2 (by rw [h])
  rw [h] at hlt
  exact hlt

/-- `Enumerable.skip` for `count > 0`. -/
def skipMachine (C : CursorImpl σ α) (getEnumerator : Unit → σ)
    (count : Int) : Machine (Int × σ) α :=
  Machine.create (fun _ => (0, getEnumerator ())) (skipStep C count)

/-- Observable result of `Enumerable.skip(source, count).toArray()`,
including the `count <= 0` guard that returns `Enumerable.empty()`. -/
def Enumerable.skip (l : List α) (count : Int) (fuel : Nat) : List α :=
  if count ≤ 0 then (Machine.empty α).toArray fuel
  else (skipMachine (listCursorImpl α) (fun _ => ListCursor.init l)
          count).toArray fuel

/-- The cursor-draining loop of `Enumerable.count` (the fast paths for
native containers return the same length for a conforming source). -/
def countLoop (e : ListCursor α) : Nat :=
  match h : e.moveNext with
  | (e', true) => countLoop e' + 1
  | (_, false) => 0
termination_by e.remaining.length
decreasing_by
  exact ListCursor.moveNext_true_length h

/-- `Enumerable.count`. -/
def Enumerable.count (l : List α) : Nat :=
  countLoop (ListCursor.init l)

/-- Step closure of `Enumerable.takeLast` for `count > 0`.  The inner
state is `(indexToReturn, idx, e)` where `indexToReturn = length - count`
was computed in setup; the loop advances until `idx === indexToReturn`
(never incrementing past it) and from then on stages every element. -/
def takeLastStep (s : Int × Int × ListCursor α) :
    (Int × Int × ListCursor α) × Option α :=
  match h : s.2.2.moveNext with
  | (e', true) =>
      if s.2.1 = s.1 then ((s.1, s.2.1, e'), e'.current)
      else takeLastStep (s.1, s.2.1 + 1, e')
  | (e', false) => ((s.1, s.2.1, e'), none)
termination_by s.2.2.remaining.length
decreasing_by
  exact ListCursor.moveNext_true_length h

/-- `Enumerable.takeLast` for `count > 0`: setup acquires a fresh cursor
and pre-computes `source.count()`. -/
def takeLastMachine (l : List α) (count : Int) :
    Machine (Int × Int × ListCursor α) α :=
  Machine.create
    (fun _ => ((Enumerable.count l : Int) - count, 0, ListCursor.init l))
    takeLastStep

/-- Observable result of `Enumerable.takeLast(source, count).toArray()`,
including the `count <= 0` guard. -/
def Enumerable.takeLast (l : List α) (count : Int) (fuel : Nat) : List α :=
  if count ≤ 0 then (Machine.empty α).toArray fuel
  else (takeLastMachine l count).toArray fuel

/-- `Enumerable._existsInArray`: linear scan with the caller-supplied
equality comparer, invoked as `equalityComparer(arr[i], value)`. -/
def existsInArray (arr : List α) (value : α) (eq : α → α → Bool) : Bool :=
  match arr with
  | [] => false
  | x :: xs => if eq x value then true else existsInArray xs value eq

/-- The cursor-draining loop of `Enumerable.toArray` applied directly to a
fresh conforming cursor (used by `except`, which materialises its second
sequence via `second.toArray()` inside setup). -/
def toArrayLoop (e : ListCursor α) : List α :=
  match h : e.moveNext with
  | (e', true) =>
      match e'.current with
      | some v => v :: toArrayLoop e'
      | none => toArrayLoop e'
  | (_, false) => []
termination_by e.remaining.length
decreasing_by
  all_goals exact ListCursor.moveNext_true_length h

/-- `second.toArray()` for a conforming sequence. -/
def listToArray (l : List α) : List α :=
  toArrayLoop (ListCursor.init l)

/-- Step closure of `Enumerable.except`: pull from `first` until an
element not present in the materialised `exceptValues` buffer is found. -/
def exceptStep (C : CursorImpl σ α) (eq : α → α → Bool)
    (s : σ × List α) : (σ × List α) × Option α :=
  match h : C.moveNext s.1 with
  | (e', true) =>
      match C.current e' with
      | some v =>
          if existsInArray s.2 v eq then exceptStep C eq (e', s.2)
          else ((e', s.2), some v)
      | none => exceptStep C eq (e', s.2)
  | (e', false) => ((e', s.2), none)
termination_by C.measure s.1
decreasing_by
  all_goals
    have hlt := C.measure_lt s.1 (by rw [h])
    rw [h] at hlt
    exact hlt

/-- `Enumerable.except`: setup acquires a cursor on `first` and fully
materialises `second` via `second.toArray()`. -/
def exceptMachine (first second : List α) (eq : α → α → Bool) :
    Machine (ListCursor α × List α) α :=
  Machine.create
    (fun _ => (ListCursor.init first, listToArray second))
    (exceptStep (listCursorImpl α) eq)

/-- The part of `Enumerable.selectMany`'s step after the inner-cursor
branch: pull the next outer element; if none, `DONE`; otherwise obtain a
cursor on its inner collection; if that cursor has a first element, stage
it, OTHERWISE RETURN `DONE` (there is no loop back to the next outer
element). -/
def selectManyOuterStep (csel : α → List β) (rsel : β → γ)
    (e : ListCursor α) (ce : Option (ListCursor β)) :
    (ListCursor α × Option (ListCursor β)) × Option γ :=
  match e.moveNext with
  | (e', false) => ((e', ce), none)
  | (e', true) =>
      match e'.current with
      | some v =>
          match (ListCursor.init (csel v)).moveNext with
          | (ce', true) => ((e', some ce'), ce'.current.map rsel)
          | (ce', false) => ((e', some ce'), none)
      | none => ((e', ce), none)

/-- Step closure of `Enumerable.selectMany`: first drain the current inner
cursor if one exists; otherwise fall through to the outer part. -/
def selectManyStep (csel : α → List β) (rsel : β → γ)
    (s : ListCursor α × Option (ListCursor β)) :
    (ListCursor α × Option (ListCursor β)) × Option γ :=
  match s.2 with
  | some ce =>
      match ce.moveNext with
      | (ce', true) => ((s.1, some ce'), ce'.current.map rsel)
      | (ce', false) => selectManyOuterStep csel rsel s.1 (some ce')
  | none => selectManyOuterStep csel rsel s.1 none

/-- `Enumerable.selectMany` (`keySelector` defaults to the identity). -/
def selectManyMachine (l : List α) (csel : α → List β) (rsel : β → γ) :
    Machine (ListCursor α × Option (ListCursor β)) γ :=
  Machine.create (fun _ => (ListCursor.init l, none))
    (selectManyStep csel rsel)

/-- A `Grouping` from `lookup.ts`: a key plus its member elements in
first-seen order. -/
structure Grouping (κ : Type) (ε : Type) : Type where
  key : κ
  elements : List ε
deriving DecidableEq, Repr

/-- One insertion of `Lookup.create`'s loop body: `getGrouping(key, true)`
scans the existing groupings for the first whose key compares equal and
appends the element to it, or pushes a new grouping at the end. -/
def Lookup.addToGroupings (gs : List (Grouping κ ε)) (key : κ) (el : ε)
    (eq : κ → κ → Bool) : List (Grouping κ ε) :=
  match gs with
  | [] => [⟨key, [el]⟩]
  | g :: rest =>
      if eq g.key key then ⟨g.key, g.elements ++ [el]⟩ :: rest
      else g :: Lookup.addToGroupings rest key el eq

/-- `Lookup.create`: fully drains the source once, partitioning elements
by key (element selector defaulted to the identity when `null`). -/
def Lookup.create (source : List ι) (keySelector : ι → κ)
    (elementSelector : ι → ε) (eq : κ → κ → Bool) :
    List (Grouping κ ε) :=
  source.foldl
    (fun gs c =>
      Lookup.addToGroupings gs (keySelector c) (elementSelector c) eq) []

/-- `Lookup.getGroupElements`: the matching group's elements, or the empty
sequence when no group matches. -/
def Lookup.getGroupElements (gs : List (Grouping κ ε)) (key : κ)
    (eq : κ → κ → Bool) : List ε :=
  match gs with
  | [] => []
  | g :: rest =>
      if eq g.key key then g.elements
      else Lookup.getGroupElements rest key eq

/-- The part of `Enumerable.innerJoin`'s step after the group-cursor
branch: pull the next outer element; if none, `DONE`; otherwise look up
its matching inner group and obtain a cursor on it; if the group has a
first element, stage the joined pair, OTHERWISE RETURN `DONE` (there is no
loop back to the next outer element). -/
def innerJoinOuterStep (okey : τ → κ) (rsel : τ → ι → ρ)
    (eq : κ → κ → Bool) (lookup : List (Grouping κ ι))
    (eo : ListCursor τ) (oel : Option τ) (eg : Option (ListCursor ι)) :
    (List (Grouping κ ι) × ListCursor τ × Option τ × Option (ListCursor ι))
      × Option ρ :=
  match eo.moveNext with
  | (eo', false) => ((lookup, eo', oel, eg), none)
  | (eo', true) =>
      match eo'.current with
      | some o =>
          match (ListCursor.init
                  (Lookup.getGroupElements lookup (okey o) eq)).moveNext with
          | (g', true) =>
              ((lookup, eo', some o, some g'), g'.current.map (rsel o))
          | (g', false) => ((lookup, eo', some o, some g'), none)
      | none => ((lookup, eo', oel, eg), none)

/-- Step closure of `Enumerable.innerJoin`: first continue draining the
current group cursor; otherwise fall through to the outer part. -/
def innerJoinStep (okey : τ → κ) (rsel : τ → ι → ρ) (eq : κ → κ → Bool)
    (s : List (Grouping κ ι) × ListCursor τ × Option τ
          × Option (ListCursor ι)) :
    (List (Grouping κ ι) × ListCursor τ × Option τ × Option (ListCursor ι))
      × Option ρ :=
  match s.2.2.2 with
  | some c =>
      match c.moveNext with
      | (c', true) =>
          match s.2.2.1 with
          | some o =>
              ((s.1, s.2.1, some o, some c'), c'.current.map (rsel o))
          | none => ((s.1, s.2.1, none, some c'), none)
      | (c', false) =>
          innerJoinOuterStep okey rsel eq s.1 s.2.1 s.2.2.1 (some c')
  | none => innerJoinOuterStep okey rsel eq s.1 s.2.1 s.2.2.1 none

/-- `Enumerable.innerJoin`: setup builds the lookup over `inner` (element
selector `null`, i.e. identity) and acquires a cursor on `outer`. -/
def innerJoinMachine (outer : List τ) (inner : List ι) (okey : τ → κ)
    (ikey : ι → κ) (rsel : τ → ι → ρ) (eq : κ → κ → Bool) :
    Machine (List (Grouping κ ι) × ListCursor τ × Option τ
              × Option (ListCursor ι)) ρ :=
  Machine.create
    (fun _ => (Lookup.create inner ikey id eq, ListCursor.init outer,
               none, none))
    (innerJoinStep okey rsel eq)

/-- The accumulation loop of `Enumerable.aggregate`:
`while (e.moveNext()) result = accumulator(result, e.current!)`. -/
def aggregateLoop (f : α → α → α) (acc : α) (e : ListCursor α) : α :=
  match h : e.moveNext with
  | (e', true) =>
      match e'.current with
      | some c => aggregateLoop f (f acc c) e'
      | none => aggregateLoop f acc e'
  | (_, false) => acc
termination_by e.remaining.length
decreasing_by
  all_goals exact ListCursor.moveNext_true_length h

/-- `Enumerable.aggregate` (accumulator and result types specialised to
the element type, as the dynamic source permits): a first `moveNext` that
fails throws Empty-sequence before the seed is consulted; without a seed
the staged first element becomes the accumulator; with a seed the cursor
is `reset()` and the seed becomes the accumulator. -/
def Enumerable.aggregate (l : List α) (f : α → α → α) (seed : Option α)
    (resultSelector : Option (α → α)) : Except TynqError α :=
  let applySel : α → Except TynqError α := fun result =>
    match resultSelector with
    | none => .ok result
    | some g => .ok (g result)
  let e := ListCursor.init l
  match e.moveNext with
  | (_, false) => .error .empty
  | (e', true) =>
      match seed with
      | none =>
          match e'.current with
          | some c => applySel (aggregateLoop f c e')
          | none => .error .empty
      | some s0 => applySel (aggregateLoop f s0 e'.reset)

/-- The draining loop of `Enumerable.elementAt`: a failed advance throws
Argument-out-of-range, `i === 0` returns the staged element, otherwise
`i--` and continue. -/
def elementAtLoop (e : ListCursor α) (i : Int) : Except TynqError α :=
  match h : e.moveNext with
  | (_, false) => .error (.argumentOutOfRange "index")
  | (e', true) =>
      if i = 0 then
        match e'.current with
        | some v => .ok v
        | none => .error (.argumentOutOfRange "index")
      else elementAtLoop e' (i - 1)
termination_by e.remaining.length
decreasing_by
  exact ListCursor.moveNext_true_length h

/-- `Enumerable.elementAt`: a negative index throws Argument-out-of-range
up front. -/
def Enumerable.elementAt (l : List α) (index : Int) : Except TynqError α :=
  if index < 0 then .error (.argumentOutOfRange "index")
  else elementAtLoop (ListCursor.init l) index

/-- The draining loop of `Enumerable.elementAtOrDefault`: a failed advance
returns the default value. -/
def elementAtOrDefaultLoop (e : ListCursor α) (i : Int)
    (defaultValue : Option α) : Option α :=
  match h : e.moveNext with
  | (_, false) => defaultValue
  | (e', true) =>
      if i = 0 then e'.current
      else elementAtOrDefaultLoop e' (i - 1) defaultValue
termination_by e.remaining.length
decreasing_by
  exact ListCursor.moveNext_true_length h

/-- `Enumerable.elementAtOrDefault` (`defaultValue` defaults to `null`,
embedded as `none`): a negative index RETURNS the default value. -/
def Enumerable.elementAtOrDefault (l : List α) (index : Int)
    (defaultValue : Option α) : Option α :=
  if index < 0 then defaultValue
  else elementAtOrDefaultLoop (ListCursor.init l) index defaultValue

/-- The state-machine cursor again, with a step closure that may throw
(modelling a user-supplied predicate/selector raising during the step):
`step` returns `Except.error` for a thrown exception.  `setup` is pure, as
in every operator of the catalog (setup only acquires cursors and
buffers). -/
structure EMachine (σ : Type) (α : Type) (ε : Type) : Type where
  setup : Unit → σ
  step : σ → Except ε (σ × Option α)
  state : MachineState
  inner : Option σ
  current : Option α

/-- The tail of `moveNext` with a throwing step: the state was already set
to `Stop` by the caller, so a thrown exception propagates leaving the
machine in `Stop` with `current` untouched. -/
def EMachine.runStep (m : EMachine σ α ε) (s : σ) :
    EMachine σ α ε × Except ε Bool :=
  match m.step s with
  | .error err => (m, .error err)
  | .ok (s', none) => ({ m with inner := some s' }, .ok false)
  | .ok (s', some v) =>
      ({ m with inner := some s', state := .HasNextElement,
                current := some v }, .ok true)

/-- `EnumeratorStateMachine.moveNext` with a throwing step; the returned
machine is the object as left behind when the call returns or throws. -/
def EMachine.moveNext (m : EMachine σ α ε) :
    EMachine σ α ε × Except ε Bool :=
  match m.state with
  | .Stop => (m, .ok false)
  | .Setup =>
      EMachine.runStep
        { m with state := .Stop, inner := some (m.setup ()) } (m.setup ())
  | .HasNextElement =>
      match m.inner with
      | some s => EMachine.runStep { m with state := .Stop } s
      | none => (m, .ok false)

/-- The result of the `(n+1)`-th subsequent call to `moveNext` on `m`. -/
def EMachine.advanceRepeat (m : EMachine σ α ε) :
    Nat → EMachine σ α ε × Except ε Bool
  | 0 => m.moveNext
  | n + 1 => EMachine.advanceRepeat m.moveNext.1 n

/-- The optional final result selector of `aggregate` (identity when
absent). -/
def applyResultSelector (resSel : Option (α → α)) (a : α) : α :=
  match resSel with
  | none => a
  | some g => g a

theorem aggregateLoop_eq_foldl (f : α → α → α) :
    ∀ (r : List α) (acc : α) (src : List α) (cur : Option α) (p : Nat),
      aggregateLoop f acc ⟨src, r, cur, p⟩ = r.foldl f acc := by
  intro r
  induction r with
  | nil =>
      intro acc src cur p
      unfold aggregateLoop
      simp [ListCursor.moveNext]
  | cons x xs ih =>
      intro acc src cur p
      unfold aggregateLoop
      simp only [ListCursor.moveNext]
      exact ih (f acc x) src (some x) (p + 1)

/-!  ### Claim theorems  -/

/-- C1: the registered array cursor is claimed to yield every element of
the array starting at index 0.  Evaluating the code at the failing input:
the `ArrayEnumerator` over `[1,2,3]` yields `[2,3]` (its pre-incremented
`_idx` skips index 0), so draining `select([1,2,3], x => x+1)` through it
yields `[3,4]` rather than `[2,3,4]`; the `where([1,2,3,4,5], x => x > 2)`
example still drains to `[3,4,5]` because the skipped element 1 is
filtered out anyway. -/
theorem c1_array_cursor_skips_first_element :
    (arrayCursorImpl Nat).drain 10 (ArrayEnumerator.init [1, 2, 3])
        = [2, 3] ∧
    (selectMachine (arrayCursorImpl Nat)
        (fun _ => ArrayEnumerator.init [1, 2, 3])
        (fun x => x + 1)).toArray 10 = [3, 4] ∧
    (whereMachine (arrayCursorImpl Nat)
        (fun _ => ArrayEnumerator.init [1, 2, 3, 4, 5])
        (fun x => decide (2 < x))).toArray 10 = [3, 4, 5] := by
  refine ⟨by decide, by decide, ?_⟩
  simp +decide [Machine.toArray, Machine.drive, Machine.moveNext,
    Machine.runStep, whereMachine, Machine.create, whereStep,
    arrayCursorImpl, ArrayEnumerator.moveNext, ArrayEnumerator.init]

/-- C2: `innerJoin` is claimed to continue with subsequent outer elements
when an outer key has no matching inner group.  Evaluating the code at the
failing input `outer = [1, 2]`, `inner = [2]`, identity key selectors: the
lookup does contain a group for key `2` (second conjunct), yet the drained
join is `[]` — the step returns `DONE` for the unmatched outer element `1`
and the whole join ends instead of continuing with outer element `2`
(which would have produced `(2, 2)`). -/
theorem c2_innerJoin_stops_at_unmatched_outer :
    (innerJoinMachine [1, 2] [2] id id Prod.mk
        (fun a b => a == b)).toArray 10 = ([] : List (Nat × Nat)) ∧
    Lookup.getGroupElements
        (Lookup.create [2] id id (fun a b : Nat => a == b)) 2
        (fun a b : Nat => a == b) = [2] := by
  exact ⟨by decide, by decide⟩

/-- C3: `selectMany` is claimed to continue flattening past an outer
element whose inner sequence is empty.  Evaluating the code at the failing
input `[[1], [], [2]]` with identity selectors: the drained result is
`[1]` — when the empty inner sequence of the second outer element produces
no first element, the step returns `DONE` and the remaining outer element
`[2]` is never flattened (the claim expects `[1, 2]`). -/
theorem c3_selectMany_stops_at_empty_inner :
    (selectManyMachine [[1], [], [2]] id id).toArray 10 = [1] := by
  decide

/-- C6 counterexample: the claim states that `aggregate` with a seed does
not fail on an empty source and returns the seed; the code throws
Empty-sequence before the seed is consulted. -/
theorem c6_counterexample_aggregate_empty_with_seed :
    Enumerable.aggregate ([] : List Nat) (fun a b => a + b) (some 0) none
      = .error .empty := rfl

/-- C6 amended: `aggregate` raises the Empty-sequence error on an empty
source regardless of whether a seed is supplied (the emptiness check
precedes the seed check); when a seed is supplied and the source is
non-empty, the cursor is reset and the result is the accumulator folded
from the seed over every element, transformed by `resultSelector` when one
is given. -/
theorem c6_aggregate_empty_always_throws (f : α → α → α) (seed : α)
    (resSel : Option (α → α)) (l : List α) (hl : l ≠ []) :
    Enumerable.aggregate ([] : List α) f (some seed) resSel
        = .error .empty ∧
    Enumerable.aggregate ([] : List α) f none resSel = .error .empty ∧
    Enumerable.aggregate l f (some seed) resSel
        = .ok (applyResultSelector resSel (l.foldl f seed)) := by
  refine ⟨rfl, rfl, ?_⟩
  cases l with
  | nil => exact absurd rfl hl
  | cons x xs =>
      simp only [Enumerable.aggregate, ListCursor.init, ListCursor.moveNext,
        ListCursor.reset]
      rw [aggregateLoop_eq_foldl]
      cases resSel <;> rfl

/-- C6 witness. -/
theorem c6_witness :
    Enumerable.aggregate ([] : List Nat) (fun a b => a + b) (some 10) none
        = .error .empty ∧
    Enumerable.aggregate ([] : List Nat) (fun a b => a + b) none none
        = .error .empty ∧
    Enumerable.aggregate [1, 2, 3] (fun a b => a + b) (some 10) none
        = .ok (applyResultSelector none ([1, 2, 3].foldl (fun a b => a + b) 10)) :=
  c6_aggregate_empty_always_throws (fun a b => a + b) 10 none [1, 2, 3]
    (by decide)

/-- C7 counterexample: the claim states that `elementAtOrDefault` with a
negative index raises the Argument-out-of-range error that `elementAt`
raises; the code returns the supplied default value instead (its result
type has no error channel at all). -/
theorem c7_counterexample_orDefault_negative_index :
    Enumerable.elementAtOrDefault [1, 2, 3] (-1) (some 4) = some 4 := rfl

/-- C7 amended: `elementAtOrDefault` converts the negative-index
Argument-out-of-range case into the sentinel default value — for every
negative index it returns `defaultValue` — while `elementAt` raises
Argument-out-of-range for the same index. -/
theorem c7_orDefault_negative_index_returns_default (l : List α)
    (index : Int) (d : Option α) (h : index < 0) :
    Enumerable.elementAtOrDefault l index d = d ∧
    Enumerable.elementAt l index
      = .error (.argumentOutOfRange "index") := by
  constructor
  · simp [Enumerable.elementAtOrDefault, if_pos h]
  · simp [Enumerable.elementAt, if_pos h]

/-- C7 witness. -/
theorem c7_witness :
    Enumerable.elementAtOrDefault [1, 2, 3] (-2) (some 4) = some 4 ∧
    Enumerable.elementAt ([1, 2, 3] : List Nat) (-2)
      = .error (.argumentOutOfRange "index") :=
  c7_orDefault_negative_index_returns_default [1, 2, 3] (-2) (some 4)
    (by norm_num)

theorem Machine.empty_toArray (α : Type) (fuel : Nat) :
    (Machine.empty α).toArray fuel = [] := by
  cases fuel <;> rfl

theorem skipStep_nil (count i : Int) (src : List α) (cur : Option α)
    (p : Nat) :
    skipStep (listCursorImpl α) count (i, ⟨src, [], cur, p⟩)
      = ((i, ⟨src, [], cur, p + 1⟩), none) := by
  unfold skipStep
  simp [listCursorImpl, ListCursor.moveNext]

theorem skipStep_cons_yield (count i : Int) (h : count ≤ i) (x : α)
    (xs src : List α) (cur : Option α) (p : Nat) :
    skipStep (listCursorImpl α) count (i, ⟨src, x :: xs, cur, p⟩)
      = ((i + 1, ⟨src, xs, some x, p + 1⟩), some x) := by
  unfold skipStep
  simp [listCursorImpl, ListCursor.moveNext, if_pos h]

theorem skipStep_cons_skip (count i : Int) (h : ¬ count ≤ i) (x : α)
    (xs src : List α) (cur : Option α) (p : Nat) :
    skipStep (listCursorImpl α) count (i, ⟨src, x :: xs, cur, p⟩)
      = skipStep (listCursorImpl α) count
          (i + 1, ⟨src, xs, some x, p + 1⟩) := by
  conv_lhs => unfold skipStep
  simp [listCursorImpl, ListCursor.moveNext, if_neg h]

theorem skipStep_run_yield (count : Int) :
    ∀ (r : List α) (fuel : Nat) (i : Int) (src : List α) (cur : Option α)
      (p : Nat), count ≤ i → r.length + 1 ≤ fuel →
      (stepRun (skipStep (listCursorImpl α) count) fuel
          (i, ⟨src, r, cur, p⟩)).1 = r := by
  intro r
  induction r with
  | nil =>
      intro fuel i src cur p hc hf
      obtain ⟨f, rfl⟩ : ∃ f, fuel = f + 1 := ⟨fuel - 1, by omega⟩
      simp [stepRun, skipStep_nil]
  | cons x xs ih =>
      intro fuel i src cur p hc hf
      obtain ⟨f, rfl⟩ : ∃ f, fuel = f + 1 := ⟨fuel - 1, by omega⟩
      simp only [stepRun, skipStep_cons_yield count i hc]
      rw [ih f (i + 1) src (some x) (p + 1) (by omega)
            (by simp at hf; omega)]

theorem skipStep_run_drop (count : Int) :
    ∀ (r : List α) (fuel : Nat) (i : Int) (src : List α) (cur : Option α)
      (p : Nat), i ≤ count → r.length + 1 ≤ fuel →
      (stepRun (skipStep (listCursorImpl α) count) fuel
          (i, ⟨src, r, cur, p⟩)).1 = r.drop (count - i).toNat := by
  intro r
  induction r with
  | nil =>
      intro fuel i src cur p hic hf
      obtain ⟨f, rfl⟩ : ∃ f, fuel = f + 1 := ⟨fuel - 1, by omega⟩
      simp [stepRun, skipStep_nil]
  | cons x xs ih =>
      intro fuel i src cur p hic hf
      obtain ⟨f, rfl⟩ : ∃ f, fuel = f + 1 := ⟨fuel - 1, by omega⟩
      by_cases hge : count ≤ i
      · have hi : i = count := le_antisymm hic hge
        subst hi
        simp only [stepRun, skipStep_cons_yield i i le_rfl]
        rw [skipStep_run_yield i xs f (i + 1) src (some x) (p + 1)
              (by omega) (by simp at hf; omega)]
        have : (i - i).toNat = 0 := by omega
        simp [this]
      · rw [stepRun_congr _ f _ _
              (skipStep_cons_skip count i hge x xs src cur p)]
        rw [ih (f + 1) (i + 1) src (some x) (p + 1) (by omega)
              (by simp at hf; omega)]
        have h1 : (count - i).toNat = (count - (i + 1)).toNat + 1 := by
          omega
        rw [h1, List.drop_succ_cons]

/-- C4 counterexample: the claim states that `skip(s, 0)` yields every
element of `s`; the code's `count <= 0` guard returns `Enumerable.empty()`
so `skip([1], 0)` drains to `[]`, not `[1]`. -/
theorem c4_counterexample_skip_zero :
    Enumerable.skip ([1] : List Nat) 0 5 = [] := by decide

/-- C4 amended: for every sequence and every `n >= 1`, draining
`skip(s, n)` yields exactly the elements of `s` after the first `n` in
source order; for `n = 0` (as for any `n <= 0`) the operator returns the
empty sequence instead of the whole of `s`, matching the repository's own
tests. -/
theorem c4_skip_amended (l : List α) (count : Int) (fuel : Nat)
    (h1 : 1 ≤ count) (hf : l.length + 1 ≤ fuel) :
    Enumerable.skip l count fuel = l.drop count.toNat ∧
    Enumerable.skip l 0 fuel = [] := by
  constructor
  · have hguard : ¬ count ≤ 0 := by omega
    rw [Enumerable.skip, if_neg hguard]
    rw [Machine.toArray,
        (Machine.drive_setup
          (skipMachine (listCursorImpl α) (fun _ => ListCursor.init l)
            count) fuel (by omega) rfl).1]
    have : (skipMachine (listCursorImpl α) (fun _ => ListCursor.init l)
        count).setup () = (0, ListCursor.init l) := rfl
    rw [show (skipMachine (listCursorImpl α)
          (fun _ => ListCursor.init l) count).step
        = skipStep (listCursorImpl α) count from rfl, this]
    rw [show ListCursor.init l = (⟨l, l, none, 0⟩ : ListCursor α) from rfl]
    rw [skipStep_run_drop count l fuel 0 l none 0 (by omega) hf]
    norm_num
  · rw [Enumerable.skip, if_pos (by norm_num), Machine.empty_toArray]

/-- C4 witness. -/
theorem c4_witness :
    Enumerable.skip ([10, 20, 30] : List Nat) 2 4 = [30] ∧
    Enumerable.skip ([10, 20, 30] : List Nat) 0 4 = [] :=
  c4_skip_amended [10, 20, 30] 2 4 (by norm_num) (by norm_num)

theorem countLoop_eq_length :
    ∀ (r : List α) (src : List α) (cur : Option α) (p : Nat),
      countLoop ⟨src, r, cur, p⟩ = r.length := by
  intro r
  induction r with
  | nil =>
      intro src cur p
      unfold countLoop
      simp [ListCursor.moveNext]
  | cons x xs ih =>
      intro src cur p
      unfold countLoop
      simp only [ListCursor.moveNext, List.length_cons]
      rw [ih src (some x) (p + 1)]

theorem Enumerable.count_eq_length (l : List α) :
    Enumerable.count l = l.length :=
  countLoop_eq_length l l none 0

theorem takeLastStep_nil (itr idx : Int) (src : List α) (cur : Option α)
    (p : Nat) :
    takeLastStep ((itr, idx, ⟨src, [], cur, p⟩) : Int × Int × ListCursor α)
      = ((itr, idx, ⟨src, [], cur, p + 1⟩), none) := by
  unfold takeLastStep
  simp [ListCursor.moveNext]

theorem takeLastStep_cons_yield (itr : Int) (x : α) (xs src : List α)
    (cur : Option α) (p : Nat) :
    takeLastStep ((itr, itr, ⟨src, x :: xs, cur, p⟩)
        : Int × Int × ListCursor α)
      = ((itr, itr, ⟨src, xs, some x, p + 1⟩), some x) := by
  unfold takeLastStep
  simp [ListCursor.moveNext]

theorem takeLastStep_cons_skip (itr idx : Int) (h : idx ≠ itr) (x : α)
    (xs src : List α) (cur : Option α) (p : Nat) :
    takeLastStep ((itr, idx, ⟨src, x :: xs, cur, p⟩)
        : Int × Int × ListCursor α)
      = takeLastStep (itr, idx + 1, ⟨src, xs, some x, p + 1⟩) := by
  conv_lhs => unfold takeLastStep
  simp [ListCursor.moveNext, if_neg h]

theorem takeLastStep_run_yield (itr : Int) :
    ∀ (r : List α) (fuel : Nat) (src : List α) (cur : Option α) (p : Nat),
      r.length + 1 ≤ fuel →
      (stepRun takeLastStep fuel (itr, itr, ⟨src, r, cur, p⟩)).1 = r := by
  intro r
  induction r with
  | nil =>
      intro fuel src cur p hf
      obtain ⟨f, rfl⟩ : ∃ f, fuel = f + 1 := ⟨fuel - 1, by omega⟩
      simp [stepRun, takeLastStep_nil]
  | cons x xs ih =>
      intro fuel src cur p hf
      obtain ⟨f, rfl⟩ : ∃ f, fuel = f + 1 := ⟨fuel - 1, by omega⟩
      simp only [stepRun, takeLastStep_cons_yield]
      rw [ih f src (some x) (p + 1) (by simp at hf; omega)]

theorem takeLastStep_run_drop (itr : Int) :
    ∀ (r : List α) (fuel : Nat) (idx : Int) (src : List α)
      (cur : Option α) (p : Nat), idx ≤ itr → r.length + 1 ≤ fuel →
      (stepRun takeLastStep fuel (itr, idx, ⟨src, r, cur, p⟩)).1
        = r.drop (itr - idx).toNat := by
  intro r
  induction r with
  | nil =>
      intro fuel idx src cur p hle hf
      obtain ⟨f, rfl⟩ : ∃ f, fuel = f + 1 := ⟨fuel - 1, by omega⟩
      simp [stepRun, takeLastStep_nil]
  | cons x xs ih =>
      intro fuel idx src cur p hle hf
      obtain ⟨f, rfl⟩ : ∃ f, fuel = f + 1 := ⟨fuel - 1, by omega⟩
      by_cases heq : idx = itr
      · subst heq
        simp only [stepRun, takeLastStep_cons_yield]
        rw [takeLastStep_run_yield idx xs f src (some x) (p + 1)
              (by simp at hf; omega)]
        have : (idx - idx).toNat = 0 := by omega
        simp [this]
      · rw [stepRun_congr _ f _ _
              (takeLastStep_cons_skip itr idx heq x xs src cur p)]
        rw [ih (f + 1) (idx + 1) src (some x) (p + 1) (by omega)
              (by simp at hf; omega)]
        have h1 : (itr - idx).toNat = (itr - (idx + 1)).toNat + 1 := by
          omega
        rw [h1, List.drop_succ_cons]

theorem takeLastStep_run_negative (itr : Int) :
    ∀ (r : List α) (fuel : Nat) (idx : Int) (src : List α)
      (cur : Option α) (p : Nat), itr < idx → 1 ≤ fuel →
      (stepRun takeLastStep fuel (itr, idx, ⟨src, r, cur, p⟩)).1 = [] := by
  intro r
  induction r with
  | nil =>
      intro fuel idx src cur p hlt hf
      obtain ⟨f, rfl⟩ : ∃ f, fuel = f + 1 := ⟨fuel - 1, by omega⟩
      simp [stepRun, takeLastStep_nil]
  | cons x xs ih =>
      intro fuel idx src cur p hlt hf
      obtain ⟨f, rfl⟩ : ∃ f, fuel = f + 1 := ⟨fuel - 1, by omega⟩
      rw [stepRun_congr _ f _ _
            (takeLastStep_cons_skip itr idx (by omega) x xs src cur p)]
      exact ih (f + 1) (idx + 1) src (some x) (p + 1) (by omega) (by omega)

/-- C5 counterexample: the claim states that `takeLast(s, n)` with `n` at
least the length of `s` yields every element of `s`; for `s = [1]` and
`n = 2` the code yields `[]` (the pre-computed skip index
`count() - n = -1` is negative and the loop index, starting at 0 and only
incrementing, never equals it, so the first step drains the whole source
and returns `DONE`). -/
theorem c5_counterexample_takeLast_overlong :
    Enumerable.takeLast ([1] : List Nat) 2 10 = [] := by
  simp [Enumerable.takeLast, Machine.toArray, Machine.drive,
    Machine.moveNext, Machine.runStep, takeLastMachine, Machine.create,
    takeLastStep, Enumerable.count, countLoop, ListCursor.init,
    ListCursor.moveNext]

/-- C5 amended: for every sequence `s` and integer `n >= 1`, draining
`takeLast(s, n)` yields the final `n` elements of `s` in source order when
`n <= count(s)`; when `n > count(s)` it yields the empty sequence (not the
whole of `s`): the pre-computed index `count(s) - n` is negative and is
never reached. -/
theorem c5_takeLast_amended (l : List α) (count : Int) (fuel : Nat)
    (h1 : 1 ≤ count) (hf : l.length + 1 ≤ fuel) :
    (count ≤ (l.length : Int) →
      Enumerable.takeLast l count fuel
        = l.drop (l.length - count.toNat)) ∧
    ((l.length : Int) < count → Enumerable.takeLast l count fuel = []) := by
  have hguard : ¬ count ≤ 0 := by omega
  have hsetup : (takeLastMachine l count).setup ()
      = ((Enumerable.count l : Int) - count, 0, ListCursor.init l) := rfl
  have hstep : (takeLastMachine l count).step = takeLastStep := rfl
  constructor
  · intro hcle
    rw [Enumerable.takeLast, if_neg hguard, Machine.toArray,
        (Machine.drive_setup (takeLastMachine l count) fuel
          (by omega) rfl).1, hstep, hsetup, Enumerable.count_eq_length,
        show ListCursor.init l = (⟨l, l, none, 0⟩ : ListCursor α) from rfl,
        takeLastStep_run_drop ((l.length : Int) - count) l fuel 0 l none 0
          (by omega) hf]
    congr 1
    omega
  · intro hclt
    rw [Enumerable.takeLast, if_neg hguard, Machine.toArray,
        (Machine.drive_setup (takeLastMachine l count) fuel
          (by omega) rfl).1, hstep, hsetup, Enumerable.count_eq_length,
        show ListCursor.init l = (⟨l, l, none, 0⟩ : ListCursor α) from rfl,
        takeLastStep_run_negative ((l.length : Int) - count) l fuel 0 l
          none 0 (by omega) (by omega)]

/-- C5 witness. -/
theorem c5_witness :
    Enumerable.takeLast ([5, 6, 7] : List Nat) 2 4 = [6, 7] ∧
    Enumerable.takeLast ([5, 6, 7] : List Nat) 5 4 = [] :=
  ⟨(c5_takeLast_amended [5, 6, 7] 2 4 (by norm_num) (by norm_num)).1
      (by norm_num),
   (c5_takeLast_amended [5, 6, 7] 5 4 (by norm_num) (by norm_num)).2
      (by norm_num)⟩

theorem takeStep_run (count : Int) :
    ∀ (r : List α) (fuel : Nat) (i : Int) (src : List α) (cur : Option α)
      (p : Nat), i ≤ count → (count - i).toNat < r.length →
      (count - i).toNat + 2 ≤ fuel →
      (stepRun (takeStep (listCursorImpl α) count) fuel
          (i, ⟨src, r, cur, p⟩)).1 = r.take (count - i).toNat ∧
      (stepRun (takeStep (listCursorImpl α) count) fuel
          (i, ⟨src, r, cur, p⟩)).2.2.pulls
        = p + (count - i).toNat + 1 := by
  intro r
  induction r with
  | nil =>
      intro fuel i src cur p hic hlen hf
      simp at hlen
  | cons x xs ih =>
      intro fuel i src cur p hic hlen hf
      obtain ⟨f, rfl⟩ : ∃ f, fuel = f + 1 := ⟨fuel - 1, by omega⟩
      by_cases heq : i = count
      · subst heq
        have hk : (i - i).toNat = 0 := by omega
        simp only [stepRun, takeStep, listCursorImpl, ListCursor.moveNext,
          if_pos rfl]
        simp [hk]
      · have hstep :
            takeStep (listCursorImpl α) count (i, ⟨src, x :: xs, cur, p⟩)
              = ((i + 1, ⟨src, xs, some x, p + 1⟩), some x) := by
          simp [takeStep, listCursorImpl, ListCursor.moveNext, if_neg heq]
        simp only [stepRun, hstep]
        have hrec := ih f (i + 1) src (some x) (p + 1) (by omega)
          (by simp at hlen; omega) (by omega)
        have h1 : (count - i).toNat = (count - (i + 1)).toNat + 1 := by
          omega
        constructor
        · simp only [hrec.1, h1, List.take_succ_cons]
        · simp only [hrec.2, h1]
          omega

/-- C8 counterexample: the claim states that fully draining `take(s, n)`
for a source with more than `n` elements advances the source cursor
exactly `n` times; for `s = [1, 2]` and `n = 1` the final source cursor
records 2 advances (the bound is tested only after a successful advance,
so the element beyond the first is pulled and discarded). -/
theorem c8_counterexample_take_advances :
    (((takeMachine (listCursorImpl Nat) (fun _ => ListCursor.init [1, 2])
        1).drive 5).2.inner).map (fun st => st.2.pulls) = some 2 := by
  decide

/-- C8 amended: for every source with more than `n` elements (`n >= 1`),
fully draining `take(s, n)` yields the first `n` elements and advances the
source cursor exactly `n + 1` times — one advance past the bound, whose
pulled element is discarded — because the `i++ === count` test runs only
after `e.moveNext()` succeeded. -/
theorem c8_take_advances_n_plus_one (l : List α) (count : Int)
    (fuel : Nat) (h1 : 1 ≤ count) (h2 : count.toNat < l.length)
    (hf : count.toNat + 2 ≤ fuel) :
    ((takeMachine (listCursorImpl α) (fun _ => ListCursor.init l)
        count).drive fuel).1 = l.take count.toNat ∧
    (((takeMachine (listCursorImpl α) (fun _ => ListCursor.init l)
        count).drive fuel).2.inner).map (fun st => st.2.pulls)
      = some (count.toNat + 1) := by
  have hbridge := Machine.drive_setup
    (takeMachine (listCursorImpl α) (fun _ => ListCursor.init l) count)
    fuel (by omega) rfl
  have hsetup : (takeMachine (listCursorImpl α)
      (fun _ => ListCursor.init l) count).setup ()
      = (0, (⟨l, l, none, 0⟩ : ListCursor α)) := rfl
  have hstep : (takeMachine (listCursorImpl α)
      (fun _ => ListCursor.init l) count).step
      = takeStep (listCursorImpl α) count := rfl
  have hk : (count - 0).toNat = count.toNat := by omega
  have hrun := takeStep_run count l fuel 0 l none 0 (by omega)
    (by omega) (by omega)
  rw [hk] at hrun
  constructor
  · rw [hbridge.1, hstep, hsetup, hrun.1]
  · rw [hbridge.2, hstep, hsetup]
    simp only [Option.map]
    rw [hrun.2]
    norm_num

/-- C8 witness. -/
theorem c8_witness :
    ((takeMachine (listCursorImpl Nat)
        (fun _ => ListCursor.init [1, 2, 3]) 1).drive 3).1 = [1] ∧
    (((takeMachine (listCursorImpl Nat)
        (fun _ => ListCursor.init [1, 2, 3]) 1).drive 3).2.inner).map
      (fun st => st.2.pulls) = some 2 :=
  c8_take_advances_n_plus_one [1, 2, 3] 1 3 (by norm_num) (by norm_num)
    (by norm_num)

theorem toArrayLoop_eq :
    ∀ (r : List α) (src : List α) (cur : Option α) (p : Nat),
      toArrayLoop ⟨src, r, cur, p⟩ = r := by
  intro r
  induction r with
  | nil =>
      intro src cur p
      unfold toArrayLoop
      simp [ListCursor.moveNext]
  | cons x xs ih =>
      intro src cur p
      unfold toArrayLoop
      simp only [ListCursor.moveNext]
      rw [ih src (some x) (p + 1)]

theorem listToArray_eq (l : List α) : listToArray l = l :=
  toArrayLoop_eq l l none 0

theorem Machine.moveNext_setup_inner_isSome (m : Machine σ α)
    (h : m.state = .Setup) : m.moveNext.1.inner.isSome = true := by
  rcases hs : m.step (m.setup ()) with ⟨s', v⟩
  cases v <;> simp [Machine.moveNext, h, Machine.runStep, hs]

/-- C9: every modelled lazy operator is O(1) at call time — the machine it
returns is in the `Setup` state with no inner state (no cursor of any
source exists yet, so none has been created or advanced), and the
one-time setup that runs on the first `advance()` is what acquires the
source cursors; in particular `except`'s setup materialises its entire
second sequence (`second.toArray()` evaluates to all of `second`) and
`takeLast`'s setup pre-computes `count()` of its source (which equals the
source length), and the first `moveNext` is what instates the inner
state. -/
theorem c9_operator_calls_do_no_element_work {σ α β γ δ ε τ ι κ ρ ω : Type}
    (C : CursorImpl σ α) (getE : Unit → σ) (sel : α → β)
    (pred : α → Bool) (count n : Int) (lsm : List γ)
    (csel : γ → List δ) (rsm : δ → ε) (louter : List τ) (linner : List ι)
    (okey : τ → κ) (ikey : ι → κ) (rj : τ → ι → ρ) (eqk : κ → κ → Bool)
    (f s lt : List ω) (eqw : ω → ω → Bool) :
    (selectMachine C getE sel).state = .Setup ∧
    (selectMachine C getE sel).inner = none ∧
    (whereMachine C getE pred).state = .Setup ∧
    (whereMachine C getE pred).inner = none ∧
    (takeMachine C getE count).state = .Setup ∧
    (takeMachine C getE count).inner = none ∧
    (skipMachine C getE count).state = .Setup ∧
    (skipMachine C getE count).inner = none ∧
    (selectManyMachine lsm csel rsm).state = .Setup ∧
    (selectManyMachine lsm csel rsm).inner = none ∧
    (innerJoinMachine louter linner okey ikey rj eqk).state = .Setup ∧
    (innerJoinMachine louter linner okey ikey rj eqk).inner = none ∧
    (exceptMachine f s eqw).state = .Setup ∧
    (exceptMachine f s eqw).inner = none ∧
    (exceptMachine f s eqw).setup ()
      = (ListCursor.init f, listToArray s) ∧
    listToArray s = s ∧
    ((exceptMachine f s eqw).moveNext.1.inner).isSome = true ∧
    (takeLastMachine lt n).state = .Setup ∧
    (takeLastMachine lt n).inner = none ∧
    (takeLastMachine lt n).setup ()
      = ((Enumerable.count lt : Int) - n, 0, ListCursor.init lt) ∧
    Enumerable.count lt = lt.length ∧
    ((takeLastMachine lt n).moveNext.1.inner).isSome = true := by
  refine ⟨rfl, rfl, rfl, rfl, rfl, rfl, rfl, rfl, rfl, rfl, rfl, rfl,
    rfl, rfl, rfl, listToArray_eq s, ?_, rfl, rfl, rfl,
    Enumerable.count_eq_length lt, ?_⟩
  · exact Machine.moveNext_setup_inner_isSome _ rfl
  · exact Machine.moveNext_setup_inner_isSome _ rfl

/-- C10: if the step closure throws during `advance()`, the exception
propagates (the hypothesis exhibits the thrown error as the call's
outcome) and the machine is left in the terminal `Stop` state with
`current` still holding the last successfully staged value; every
subsequent `advance()` then returns `false` immediately — the `Stop`
branch of `moveNext` returns the machine unchanged, invoking neither the
setup nor the step closure. -/
theorem c10_throwing_step_stops_machine (m m' : EMachine σ α ε) (err : ε)
    (h : m.moveNext = (m', .error err)) :
    m'.state = .Stop ∧ m'.current = m.current ∧
    ∀ n, m'.advanceRepeat n = (m', .ok false) := by
  have hm' : m'.state = .Stop ∧ m'.current = m.current := by
    cases hst : m.state with
    | Stop =>
        simp [EMachine.moveNext, hst] at h
    | Setup =>
        rcases hs : m.step (m.setup ()) with e | ⟨s', v⟩
        · simp only [EMachine.moveNext, hst, EMachine.runStep, hs,
            Prod.mk.injEq] at h
          rw [← h.1]
          exact ⟨rfl, rfl⟩
        · cases v <;>
            simp [EMachine.moveNext, hst, EMachine.runStep, hs] at h
    | HasNextElement =>
        cases hin : m.inner with
        | none => simp [EMachine.moveNext, hst, hin] at h
        | some s =>
            rcases hs : m.step s with e | ⟨s', v⟩
            · simp only [EMachine.moveNext, hst, hin, EMachine.runStep,
                hs, Prod.mk.injEq] at h
              rw [← h.1]
              exact ⟨rfl, rfl⟩
            · cases v <;>
                simp [EMachine.moveNext, hst, hin,
                  EMachine.runStep, hs] at h
  have hfix : m'.moveNext = (m', .ok false) := by
    rw [EMachine.moveNext, hm'.1]
  refine ⟨hm'.1, hm'.2, ?_⟩
  intro n
  induction n with
  | zero => exact hfix
  | succ n ih =>
      rw [EMachine.advanceRepeat, hfix]
      exact ih

/-- A state-machine cursor mid-enumeration (an element already staged)
whose step closure throws; used to instantiate the C10 theorem. -/
def throwingMachine : EMachine Unit Nat String :=
  { setup := fun _ => ()
    step := fun _ => .error "user callback failed"
    state := .HasNextElement
    inner := some ()
    current := some 7 }

/-- C10 witness. -/
theorem c10_witness :
    throwingMachine.moveNext.1.state = .Stop ∧
    throwingMachine.moveNext.1.current = throwingMachine.current ∧
    throwingMachine.moveNext.1.advanceRepeat 2
      = (throwingMachine.moveNext.1, .ok false) := by
  have h := c10_throwing_step_stops_machine throwingMachine
    throwingMachine.moveNext.1 "user callback failed" rfl
  exact ⟨h.1, h.2.1, h.2.2 2⟩

end Tynq
